import Mathlib

/-!
Shallow embedding of the brainruck interpreter (src/src/main.rs).

The tape is a head index plus a list of byte cells (`Vec<u8>` becomes
`List Nat`, with wrapping arithmetic written modulo 256 explicitly).
A Rust `panic!` and the two `io::Error` outcomes become constructors of
`RunErr`, returned through `Except`.  The `run` loop is given explicit
fuel; `none` means the fuel ran out before the loop finished.
-/

namespace Brainruck

/-- Error outcomes of a run: the `panic!` in `Tape::left`, the
`InvalidData` error built by the bracket scans, and any other I/O error
kind (carried as a numeric code). -/
inductive RunErr where
  | panicNegativeIndex : RunErr
  | invalidCode : RunErr
  | ioError (k : Nat) : RunErr
deriving DecidableEq

/-- Outcome of `read_exact` on a one-byte buffer: a byte, or an error of
some kind.  `UnexpectedEof` is the kind the code treats specially. -/
inductive IOKind where
  | unexpectedEof : IOKind
  | other (k : Nat) : IOKind
deriving DecidableEq

inductive ReadRes where
  | ok (b : Nat) : ReadRes
  | err (kind : IOKind) : ReadRes
deriving DecidableEq

/-- The tape: `struct Tape { head: usize, cells: Vec<u8> }`. -/
structure Tape where
  head : Nat
  cells : List Nat
deriving DecidableEq

/-- `Tape::new`: one zero cell, head at 0. -/
def Tape.new : Tape := ⟨0, [0]⟩

/-- `Tape::right`: push a zero cell if the head is at the last cell, then
advance the head. -/
def Tape.right (t : Tape) : Tape :=
  let cells := if t.head = t.cells.length - 1 then t.cells ++ [0] else t.cells
  ⟨t.head + 1, cells⟩

/-- `Tape::left`: panics ("Tried to go to a negative tape index!") when the
head is 0, otherwise decrements the head. -/
def Tape.left (t : Tape) : Except RunErr Tape :=
  if t.head = 0 then .error .panicNegativeIndex
  else .ok ⟨t.head - 1, t.cells⟩

/-- `Tape::increment`: wrapping add of 1 to the cell at the head. -/
def Tape.increment (t : Tape) : Tape :=
  ⟨t.head, t.cells.set t.head ((t.cells.getD t.head 0 + 1) % 256)⟩

/-- `Tape::decrement`: wrapping subtract of 1 from the cell at the head
(on a byte, `wrapping_sub 1` is adding 255 modulo 256). -/
def Tape.decrement (t : Tape) : Tape :=
  ⟨t.head, t.cells.set t.head ((t.cells.getD t.head 0 + 255) % 256)⟩

/-- `Tape::output`: write the byte at the head to the sink (the sink is a
list of bytes already written). -/
def Tape.output (t : Tape) (sink : List Nat) : List Nat :=
  sink ++ [t.cells.getD t.head 0]

/-- `Tape::input`: `read_exact` into the cell at the head; on
`UnexpectedEof` the cell is set to 0 and the call succeeds; any other
error kind is returned to the caller. -/
def Tape.input (t : Tape) (r : ReadRes) : Except RunErr Tape :=
  match r with
  | .ok b => .ok ⟨t.head, t.cells.set t.head b⟩
  | .err .unexpectedEof => .ok ⟨t.head, t.cells.set t.head 0⟩
  | .err (.other k) => .error (.ioError k)

/-- `read_exact` against a finite byte stream: end of stream is the
`UnexpectedEof` error, otherwise one byte is consumed. -/
def readExact : List Nat → ReadRes × List Nat
  | [] => (.err .unexpectedEof, [])
  | b :: rest => (.ok b, rest)

/-- `Tape::is_zero`. -/
def Tape.isZero (t : Tape) : Bool :=
  t.cells.getD t.head 0 == 0

/-- The loop body of `Interpreter::matching_for_left_paren`: scan the
slice after the `[`, keeping the relative index `i` and the nesting
counter `encountered`; the function returns `Ok(i)` — the index relative
to the start of the slice. -/
def mflpAux : Nat → Nat → List Char → Except RunErr Nat
  | _, _, [] => .error .invalidCode
  | i, enc, c :: rest =>
    if c = '[' then mflpAux (i + 1) (enc + 1) rest
    else if c = ']' then
      if enc = 0 then .ok i else mflpAux (i + 1) (enc - 1) rest
    else mflpAux (i + 1) enc rest

/-- `Interpreter::matching_for_left_paren`: iterate over
`code[(current_index + 1)..]` with `enumerate`, so the returned index is
relative to that slice, not absolute in `code`. -/
def Interpreter.matching_for_left_paren (current_index : Nat) (code : List Char) :
    Except RunErr Nat :=
  mflpAux 0 0 (code.drop (current_index + 1))

/-- The loop body of `Interpreter::matching_for_right_paren`: scan the
reversed prefix before the `]`; `i` is the absolute index of the current
character (the `enumerate` happens before the `rev`, on the prefix
`code[..current_index]`, so indices are absolute). -/
def mfrpAux : Nat → Nat → List Char → Except RunErr Nat
  | _, _, [] => .error .invalidCode
  | i, enc, c :: rest =>
    if c = ']' then mfrpAux (i - 1) (enc + 1) rest
    else if c = '[' then
      if enc = 0 then .ok i else mfrpAux (i - 1) (enc - 1) rest
    else mfrpAux (i - 1) enc rest

/-- `Interpreter::matching_for_right_paren`: iterate over
`code[..current_index]` in reverse; the returned index is absolute. -/
def Interpreter.matching_for_right_paren (current_index : Nat) (code : List Char) :
    Except RunErr Nat :=
  mfrpAux (current_index - 1) 0 (code.take current_index).reverse

/-- Execution state owned by the interpreter: the tape, the unread part
of the input stream, and the bytes written so far. -/
structure St where
  tape : Tape
  inp : List Nat
  out : List Nat
deriving DecidableEq

/-- One arm of the `match code[i] as char` dispatch in
`Interpreter::run`, returning the cursor value just before the shared
`i += 1`, together with the updated state. -/
def step (code : List Char) (i : Nat) (s : St) : Except RunErr (Nat × St) :=
  let c := code.getD i ' '
  if c = '>' then .ok (i, { s with tape := s.tape.right })
  else if c = '<' then s.tape.left.map fun t => (i, { s with tape := t })
  else if c = '+' then .ok (i, { s with tape := s.tape.increment })
  else if c = '-' then .ok (i, { s with tape := s.tape.decrement })
  else if c = '.' then .ok (i, { s with out := s.tape.output s.out })
  else if c = ',' then
    let p := readExact s.inp
    (s.tape.input p.1).map fun t => (i, { s with tape := t, inp := p.2 })
  else if c = '[' then
    if s.tape.isZero then
      (Interpreter.matching_for_left_paren i code).map fun j => (j, s)
    else .ok (i, s)
  else if c = ']' then
    if !s.tape.isZero then
      (Interpreter.matching_for_right_paren i code).map fun j => (j, s)
    else .ok (i, s)
  else .ok (i, s)

/-- `Interpreter::run` with explicit fuel: break when the cursor reaches
the program length, otherwise dispatch and advance the cursor by one.
`none` means the fuel was exhausted before the loop ended. -/
def runFuel (code : List Char) : Nat → Nat → St → Option (Except RunErr St)
  | 0, _, _ => none
  | fuel + 1, i, s =>
    if i = code.length then some (.ok s)
    else
      match step code i s with
      | .error e => some (.error e)
      | .ok (j, s') => runFuel code fuel (j + 1) s'

/-- The state at the start of `run`: fresh tape, the given input stream,
nothing written yet. -/
def initSt (inp : List Nat) : St := ⟨Tape.new, inp, []⟩

/-! ## Spec-side matching-bracket notion

The spec's "matching bracket" is the bracket of opposite kind at the same
nesting depth.  For a `[` at position `i`, the matching `]` at position
`q` is characterised by: the segment strictly between them has equally
many `[` and `]`, and no prefix of that segment closes more than it
opens.  For a `]` the mirror condition on suffixes is used. -/

/-- Number of `[` minus number of `]` in a list. -/
def netBr (l : List Char) : Int := (l.count '[' : Int) - (l.count ']' : Int)

/-- Number of `]` minus number of `[` in a list. -/
def netRv (l : List Char) : Int := (l.count ']' : Int) - (l.count '[' : Int)

/-- Contribution of one character to `netBr`. -/
def netDelta (c : Char) : Int :=
  if c = '[' then 1 else if c = ']' then -1 else 0

/-- The `]` at absolute position `q` is the matching close bracket of the
`[` at absolute position `i`. -/
def MatchesClose (code : List Char) (i q : Nat) : Prop :=
  i < q ∧ q < code.length ∧ code.getD q ' ' = ']' ∧
    netBr ((code.drop (i + 1)).take (q - i - 1)) = 0 ∧
    ∀ n, n ≤ q - i - 1 → 0 ≤ netBr ((code.drop (i + 1)).take n)

/-- The `[` at absolute position `p` is the matching open bracket of the
`]` at absolute position `q`. -/
def MatchesOpen (code : List Char) (q p : Nat) : Prop :=
  p < q ∧ code.getD p ' ' = '[' ∧
    netRv ((code.take q).drop (p + 1)) = 0 ∧
    ∀ k, p + 1 ≤ k → k ≤ q → 0 ≤ netRv ((code.take q).drop k)

lemma netBr_nil : netBr [] = 0 := by simp [netBr]

lemma netRv_nil : netRv [] = 0 := by simp [netRv]

lemma netBr_cons (c : Char) (l : List Char) :
    netBr (c :: l) = netDelta c + netBr l := by
  by_cases h1 : c = '['
  · subst h1; simp [netBr, netDelta, List.count_cons]; ring
  · by_cases h2 : c = ']'
    · subst h2; simp [netBr, netDelta, List.count_cons, h1]; ring
    · simp [netBr, netDelta, List.count_cons, h1, h2]

lemma netRv_cons (c : Char) (l : List Char) :
    netRv (c :: l) = -netDelta c + netRv l := by
  by_cases h1 : c = '['
  · subst h1; simp [netRv, netDelta, List.count_cons]; ring
  · by_cases h2 : c = ']'
    · subst h2; simp [netRv, netDelta, List.count_cons, h1]; ring
    · simp [netRv, netDelta, List.count_cons, h1, h2]

/-- Soundness of the forward scan: an `Ok(j)` return means position `j`
is `i` plus the offset of a close bracket at balance `-e`, with the
running balance never having dipped below zero. -/
lemma mflpAux_sound : ∀ (l : List Char) (i e j : Nat),
    mflpAux i e l = .ok j →
    ∃ m, m < l.length ∧ j = i + m ∧ l.getD m ' ' = ']' ∧
      (e : Int) + netBr (l.take m) = 0 ∧
      ∀ n, n ≤ m → 0 ≤ (e : Int) + netBr (l.take n) := by
  intro l
  induction l with
  | nil => intro i e j h; simp [mflpAux] at h
  | cons c rest ih =>
    intro i e j h
    simp only [mflpAux] at h
    by_cases h1 : c = '['
    · rw [if_pos h1] at h
      obtain ⟨m, hm, hj, hch, hnet, hpre⟩ := ih (i + 1) (e + 1) j h
      refine ⟨m + 1, by simpa using Nat.succ_lt_succ hm, by omega,
        by simpa using hch, ?_, ?_⟩
      · rw [List.take_succ_cons, netBr_cons, netDelta, if_pos h1]
        push_cast at hnet ⊢; omega
      · intro n hn
        match n with
        | 0 => simp [netBr_nil]
        | n + 1 =>
          have := hpre n (by omega)
          rw [List.take_succ_cons, netBr_cons, netDelta, if_pos h1]
          push_cast at this ⊢; omega
    · rw [if_neg h1] at h
      by_cases h2 : c = ']'
      · rw [if_pos h2] at h
        by_cases he : e = 0
        · rw [if_pos he] at h
          obtain rfl : j = i := by simpa using h.symm
          subst he
          refine ⟨0, by simp, by omega, by simpa using h2, by simp [netBr_nil], ?_⟩
          intro n hn
          obtain rfl : n = 0 := Nat.le_zero.mp hn
          simp [netBr_nil]
        · rw [if_neg he] at h
          obtain ⟨m, hm, hj, hch, hnet, hpre⟩ := ih (i + 1) (e - 1) j h
          have he1 : 1 ≤ e := Nat.one_le_iff_ne_zero.mpr he
          refine ⟨m + 1, by simpa using Nat.succ_lt_succ hm, by omega,
            by simpa using hch, ?_, ?_⟩
          · rw [List.take_succ_cons, netBr_cons, netDelta, if_neg h1, if_pos h2]
            have : ((e - 1 : Nat) : Int) = (e : Int) - 1 := by omega
            rw [this] at hnet; omega
          · intro n hn
            match n with
            | 0 => simp [netBr_nil]
            | n + 1 =>
              have hp := hpre n (by omega)
              have : ((e - 1 : Nat) : Int) = (e : Int) - 1 := by omega
              rw [this] at hp
              rw [List.take_succ_cons, netBr_cons, netDelta, if_neg h1, if_pos h2]
              omega
      · rw [if_neg h2] at h
        obtain ⟨m, hm, hj, hch, hnet, hpre⟩ := ih (i + 1) e j h
        refine ⟨m + 1, by simpa using Nat.succ_lt_succ hm, by omega,
          by simpa using hch, ?_, ?_⟩
        · rw [List.take_succ_cons, netBr_cons, netDelta, if_neg h1, if_neg h2]
          omega
        · intro n hn
          match n with
          | 0 => simp [netBr_nil]
          | n + 1 =>
            have := hpre n (by omega)
            rw [List.take_succ_cons, netBr_cons, netDelta, if_neg h1, if_neg h2]
            omega

/-- Completeness of the forward scan: if some position satisfies the
close-bracket condition at balance `-e`, the scan succeeds. -/
lemma mflpAux_complete : ∀ (l : List Char) (i e m : Nat),
    m < l.length → l.getD m ' ' = ']' →
    (e : Int) + netBr (l.take m) = 0 →
    (∀ n, n ≤ m → 0 ≤ (e : Int) + netBr (l.take n)) →
    ∃ j, mflpAux i e l = .ok j := by
  intro l
  induction l with
  | nil => intro i e m hm; simp at hm
  | cons c rest ih =>
    intro i e m hm hch hnet hpre
    simp only [mflpAux]
    match m with
    | 0 =>
      simp only [List.getD_cons_zero] at hch
      rw [List.take_zero, netBr_nil] at hnet
      have he : e = 0 := by omega
      subst he; subst hch
      simp
    | m + 1 =>
      rw [List.take_succ_cons, netBr_cons] at hnet
      simp only [List.getD_cons_succ] at hch
      by_cases h1 : c = '['
      · rw [if_pos h1]
        rw [netDelta, if_pos h1] at hnet
        refine ih (i + 1) (e + 1) m (by simpa using hm) hch (by push_cast; omega) ?_
        intro n hn
        have := hpre (n + 1) (by omega)
        rw [List.take_succ_cons, netBr_cons, netDelta, if_pos h1] at this
        push_cast at this ⊢; omega
      · rw [if_neg h1]
        by_cases h2 : c = ']'
        · rw [if_pos h2]
          rw [netDelta, if_neg h1, if_pos h2] at hnet
          have h1le : 1 ≤ e := by
            have := hpre 1 (by omega)
            rw [List.take_succ_cons, List.take_zero, netBr_cons, netBr_nil,
              netDelta, if_neg h1, if_pos h2] at this
            omega
          have he : e ≠ 0 := by omega
          rw [if_neg he]
          have hcast : ((e - 1 : Nat) : Int) = (e : Int) - 1 := by omega
          refine ih (i + 1) (e - 1) m (by simpa using hm) hch (by rw [hcast]; omega) ?_
          intro n hn
          have := hpre (n + 1) (by omega)
          rw [List.take_succ_cons, netBr_cons, netDelta, if_neg h1, if_pos h2] at this
          rw [hcast]; omega
        · rw [if_neg h2]
          rw [netDelta, if_neg h1, if_neg h2] at hnet
          refine ih (i + 1) e m (by simpa using hm) hch (by omega) ?_
          intro n hn
          have := hpre (n + 1) (by omega)
          rw [List.take_succ_cons, netBr_cons, netDelta, if_neg h1, if_neg h2] at this
          omega

/-- The forward scan only ever fails with the invalid-program error. -/
lemma mflpAux_error_or_ok : ∀ (l : List Char) (i e : Nat),
    mflpAux i e l = .error .invalidCode ∨ ∃ j, mflpAux i e l = .ok j := by
  intro l
  induction l with
  | nil => intro i e; left; rfl
  | cons c rest ih =>
    intro i e
    simp only [mflpAux]
    by_cases h1 : c = '['
    · rw [if_pos h1]; exact ih (i + 1) (e + 1)
    · rw [if_neg h1]
      by_cases h2 : c = ']'
      · rw [if_pos h2]
        by_cases he : e = 0
        · rw [if_pos he]; right; exact ⟨i, rfl⟩
        · rw [if_neg he]; exact ih (i + 1) (e - 1)
      · rw [if_neg h2]; exact ih (i + 1) e

/-- Soundness of the backward scan: an `Ok(j)` return means `j` is the
absolute index of an open bracket at balance `-e` counted from the right
end of the scanned prefix. -/
lemma mfrpAux_sound : ∀ (l : List Char) (i e j : Nat),
    l.length ≤ i + 1 → mfrpAux i e l = .ok j →
    ∃ m, m < l.length ∧ j = i - m ∧ l.getD m ' ' = '[' ∧
      (e : Int) + netRv (l.take m) = 0 ∧
      ∀ n, n ≤ m → 0 ≤ (e : Int) + netRv (l.take n) := by
  intro l
  induction l with
  | nil => intro i e j _ h; simp [mfrpAux] at h
  | cons c rest ih =>
    intro i e j hlen h
    simp only [mfrpAux] at h
    have hlen' : rest.length ≤ (i - 1) + 1 := by
      simp only [List.length_cons] at hlen; omega
    by_cases h1 : c = ']'
    · rw [if_pos h1] at h
      obtain ⟨m, hm, hj, hch, hnet, hpre⟩ := ih (i - 1) (e + 1) j hlen' h
      have hmi : m + 1 ≤ i := by
        simp only [List.length_cons] at hlen; omega
      refine ⟨m + 1, by simpa using Nat.succ_lt_succ hm, by omega,
        by simpa using hch, ?_, ?_⟩
      · rw [List.take_succ_cons, netRv_cons, netDelta, if_neg (show c ≠ '[' by subst h1; decide), if_pos h1]
        push_cast at hnet ⊢; omega
      · intro n hn
        match n with
        | 0 => simp [netRv_nil]
        | n + 1 =>
          have := hpre n (by omega)
          rw [List.take_succ_cons, netRv_cons, netDelta, if_neg (show c ≠ '[' by subst h1; decide), if_pos h1]
          push_cast at this ⊢; omega
    · rw [if_neg h1] at h
      by_cases h2 : c = '['
      · rw [if_pos h2] at h
        by_cases he : e = 0
        · rw [if_pos he] at h
          obtain rfl : j = i := by simpa using h.symm
          subst he
          refine ⟨0, by simp, by omega, by simpa using h2, by simp [netRv_nil], ?_⟩
          intro n hn
          obtain rfl : n = 0 := Nat.le_zero.mp hn
          simp [netRv_nil]
        · rw [if_neg he] at h
          obtain ⟨m, hm, hj, hch, hnet, hpre⟩ := ih (i - 1) (e - 1) j hlen' h
          have he1 : 1 ≤ e := Nat.one_le_iff_ne_zero.mpr he
          have hcast : ((e - 1 : Nat) : Int) = (e : Int) - 1 := by omega
          refine ⟨m + 1, by simpa using Nat.succ_lt_succ hm, ?_,
            by simpa using hch, ?_, ?_⟩
          · simp only [List.length_cons] at hlen; omega
          · rw [List.take_succ_cons, netRv_cons, netDelta, if_pos h2]
            rw [hcast] at hnet; omega
          · intro n hn
            match n with
            | 0 => simp [netRv_nil]
            | n + 1 =>
              have hp := hpre n (by omega)
              rw [hcast] at hp
              rw [List.take_succ_cons, netRv_cons, netDelta, if_pos h2]
              omega
      · rw [if_neg h2] at h
        obtain ⟨m, hm, hj, hch, hnet, hpre⟩ := ih (i - 1) e j hlen' h
        refine ⟨m + 1, by simpa using Nat.succ_lt_succ hm, ?_,
          by simpa using hch, ?_, ?_⟩
        · simp only [List.length_cons] at hlen; omega
        · rw [List.take_succ_cons, netRv_cons, netDelta, if_neg h2, if_neg h1]
          omega
        · intro n hn
          match n with
          | 0 => simp [netRv_nil]
          | n + 1 =>
            have := hpre n (by omega)
            rw [List.take_succ_cons, netRv_cons, netDelta, if_neg h2, if_neg h1]
            omega

/-- Completeness of the backward scan: if some position of the reversed
prefix satisfies the open-bracket condition, the scan succeeds. -/
lemma mfrpAux_complete : ∀ (l : List Char) (i e m : Nat),
    m < l.length → l.getD m ' ' = '[' →
    (e : Int) + netRv (l.take m) = 0 →
    (∀ n, n ≤ m → 0 ≤ (e : Int) + netRv (l.take n)) →
    ∃ j, mfrpAux i e l = .ok j := by
  intro l
  induction l with
  | nil => intro i e m hm; simp at hm
  | cons c rest ih =>
    intro i e m hm hch hnet hpre
    simp only [mfrpAux]
    match m with
    | 0 =>
      simp only [List.getD_cons_zero] at hch
      rw [List.take_zero, netRv_nil] at hnet
      have he : e = 0 := by omega
      subst he; subst hch
      simp
    | m + 1 =>
      rw [List.take_succ_cons, netRv_cons] at hnet
      simp only [List.getD_cons_succ] at hch
      by_cases h1 : c = ']'
      · rw [if_pos h1]
        rw [netDelta, if_neg (show c ≠ '[' by subst h1; decide), if_pos h1] at hnet
        refine ih (i - 1) (e + 1) m (by simpa using hm) hch (by push_cast; omega) ?_
        intro n hn
        have := hpre (n + 1) (by omega)
        rw [List.take_succ_cons, netRv_cons, netDelta,
          if_neg (show c ≠ '[' by subst h1; decide), if_pos h1] at this
        push_cast at this ⊢; omega
      · rw [if_neg h1]
        by_cases h2 : c = '['
        · rw [if_pos h2]
          rw [netDelta, if_pos h2] at hnet
          have h1le : 1 ≤ e := by
            have := hpre 1 (by omega)
            rw [List.take_succ_cons, List.take_zero, netRv_cons, netRv_nil,
              netDelta, if_pos h2] at this
            omega
          have he : e ≠ 0 := by omega
          rw [if_neg he]
          have hcast : ((e - 1 : Nat) : Int) = (e : Int) - 1 := by omega
          refine ih (i - 1) (e - 1) m (by simpa using hm) hch (by rw [hcast]; omega) ?_
          intro n hn
          have := hpre (n + 1) (by omega)
          rw [List.take_succ_cons, netRv_cons, netDelta, if_pos h2] at this
          rw [hcast]; omega
        · rw [if_neg h2]
          rw [netDelta, if_neg h2, if_neg h1] at hnet
          refine ih (i - 1) e m (by simpa using hm) hch (by omega) ?_
          intro n hn
          have := hpre (n + 1) (by omega)
          rw [List.take_succ_cons, netRv_cons, netDelta, if_neg h2, if_neg h1] at this
          omega

/-- The backward scan only ever fails with the invalid-program error. -/
lemma mfrpAux_error_or_ok : ∀ (l : List Char) (i e : Nat),
    mfrpAux i e l = .error .invalidCode ∨ ∃ j, mfrpAux i e l = .ok j := by
  intro l
  induction l with
  | nil => intro i e; left; rfl
  | cons c rest ih =>
    intro i e
    simp only [mfrpAux]
    by_cases h1 : c = ']'
    · rw [if_pos h1]; exact ih (i - 1) (e + 1)
    · rw [if_neg h1]
      by_cases h2 : c = '['
      · rw [if_pos h2]
        by_cases he : e = 0
        · rw [if_pos he]; right; exact ⟨i, rfl⟩
        · rw [if_neg he]; exact ih (i - 1) (e - 1)
      · rw [if_neg h2]; exact ih (i - 1) e

/-- Close-bracket condition relative to the start of a scanned suffix. -/
def ClosedAt (l : List Char) (m : Nat) : Prop :=
  m < l.length ∧ l.getD m ' ' = ']' ∧ netBr (l.take m) = 0 ∧
    ∀ n, n ≤ m → 0 ≤ netBr (l.take n)

/-- Open-bracket condition relative to the start of a reversed prefix. -/
def OpenAt (l : List Char) (m : Nat) : Prop :=
  m < l.length ∧ l.getD m ' ' = '[' ∧ netRv (l.take m) = 0 ∧
    ∀ n, n ≤ m → 0 ≤ netRv (l.take n)

lemma netBr_append (a b : List Char) : netBr (a ++ b) = netBr a + netBr b := by
  simp [netBr, List.count_append]; ring

lemma netRv_append (a b : List Char) : netRv (a ++ b) = netRv a + netRv b := by
  simp [netRv, List.count_append]; ring

lemma netBr_single (c : Char) : netBr [c] = netDelta c := by
  rw [show [c] = c :: ([] : List Char) from rfl, netBr_cons, netBr_nil, add_zero]

lemma netRv_single (c : Char) : netRv [c] = -netDelta c := by
  rw [show [c] = c :: ([] : List Char) from rfl, netRv_cons, netRv_nil, add_zero]

lemma getD_drop (l : List Char) (k n : Nat) :
    (l.drop k).getD n ' ' = l.getD (k + n) ' ' := by
  simp [List.getD_eq_getElem?_getD, List.getElem?_drop]

lemma netBr_take_succ (l : List Char) (n : Nat) (h : n < l.length) :
    netBr (l.take (n + 1)) = netBr (l.take n) + netDelta (l.getD n ' ') := by
  rw [List.take_succ, List.getElem?_eq_getElem h]
  simp only [Option.toList_some]
  rw [netBr_append, netBr_single, List.getD_eq_getElem l ' ' h]

lemma netRv_take_succ (l : List Char) (n : Nat) (h : n < l.length) :
    netRv (l.take (n + 1)) = netRv (l.take n) - netDelta (l.getD n ' ') := by
  rw [List.take_succ, List.getElem?_eq_getElem h]
  simp only [Option.toList_some]
  rw [netRv_append, netRv_single, List.getD_eq_getElem l ' ' h]
  ring

/-- At most one position of a suffix satisfies the close-bracket
condition: the matching `]` is unique. -/
lemma closedAt_unique {l : List Char} {m1 m2 : Nat}
    (h1 : ClosedAt l m1) (h2 : ClosedAt l m2) : m1 = m2 := by
  have aux : ∀ a b : Nat, ClosedAt l a → ClosedAt l b → a < b → False := by
    intro a b ha hb hab
    obtain ⟨hlen, hch, hnet, _⟩ := ha
    have hstep := netBr_take_succ l a hlen
    rw [hnet, hch] at hstep
    have hd : netDelta ']' = -1 := by decide
    rw [hd] at hstep
    have := hb.2.2.2 (a + 1) (by omega)
    omega
  rcases Nat.lt_trichotomy m1 m2 with h | h | h
  · exact absurd h (fun hh => aux m1 m2 h1 h2 hh)
  · exact h
  · exact absurd h (fun hh => aux m2 m1 h2 h1 hh)

/-- At most one position of a reversed prefix satisfies the open-bracket
condition: the matching `[` is unique. -/
lemma openAt_unique {l : List Char} {m1 m2 : Nat}
    (h1 : OpenAt l m1) (h2 : OpenAt l m2) : m1 = m2 := by
  have aux : ∀ a b : Nat, OpenAt l a → OpenAt l b → a < b → False := by
    intro a b ha hb hab
    obtain ⟨hlen, hch, hnet, _⟩ := ha
    have hstep := netRv_take_succ l a hlen
    rw [hnet, hch] at hstep
    have hd : netDelta '[' = 1 := by decide
    rw [hd] at hstep
    have := hb.2.2.2 (a + 1) (by omega)
    omega
  rcases Nat.lt_trichotomy m1 m2 with h | h | h
  · exact absurd h (fun hh => aux m1 m2 h1 h2 hh)
  · exact h
  · exact absurd h (fun hh => aux m2 m1 h2 h1 hh)

/-- The absolute matching-close condition is the relative one on the
suffix after the `[`. -/
lemma matchesClose_iff (code : List Char) (i q : Nat) :
    MatchesClose code i q ↔ i < q ∧ ClosedAt (code.drop (i + 1)) (q - i - 1) := by
  unfold MatchesClose ClosedAt
  constructor
  · rintro ⟨h1, h2, h3, h4, h5⟩
    refine ⟨h1, ⟨?_, ?_, h4, h5⟩⟩
    · rw [List.length_drop]; omega
    · rw [getD_drop]
      have : i + 1 + (q - i - 1) = q := by omega
      rw [this]; exact h3
  · rintro ⟨h1, hm, hc, hn, hp⟩
    rw [List.length_drop] at hm
    rw [getD_drop] at hc
    have heq : i + 1 + (q - i - 1) = q := by omega
    rw [heq] at hc
    exact ⟨h1, by omega, hc, hn, hp⟩

lemma netRv_take_reverse (l : List Char) (n : Nat) :
    netRv (l.reverse.take n) = netRv (l.drop (l.length - n)) := by
  rw [List.take_reverse]
  unfold netRv
  rw [List.count_reverse, List.count_reverse]

/-- The absolute matching-open condition is the relative one on the
reversed prefix before the `]`. -/
lemma matchesOpen_iff (code : List Char) (q p : Nat) (hq : q ≤ code.length) :
    MatchesOpen code q p ↔ p < q ∧ OpenAt ((code.take q).reverse) (q - 1 - p) := by
  have hlen : (code.take q).length = q := by
    rw [List.length_take]; omega
  have hlenr : ((code.take q).reverse).length = q := by
    rw [List.length_reverse]; exact hlen
  unfold MatchesOpen OpenAt
  constructor
  · rintro ⟨h1, h2, h3, h4⟩
    have hm : q - 1 - p < q := by omega
    refine ⟨h1, ⟨by omega, ?_, ?_, ?_⟩⟩
    · rw [List.getD_eq_getElem?_getD, List.getElem?_reverse (by omega : q - 1 - p < (code.take q).length)]
      rw [hlen]
      have : q - 1 - (q - 1 - p) = p := by omega
      rw [this, List.getElem?_take, if_pos h1, ← List.getD_eq_getElem?_getD]
      exact h2
    · rw [netRv_take_reverse, hlen]
      have : q - (q - 1 - p) = p + 1 := by omega
      rw [this]; exact h3
    · intro n hn
      rw [netRv_take_reverse, hlen]
      exact h4 (q - n) (by omega) (by omega)
  · rintro ⟨h1, _, hc, hn, hp⟩
    refine ⟨h1, ?_, ?_, ?_⟩
    · rw [List.getD_eq_getElem?_getD, List.getElem?_reverse (by omega : q - 1 - p < (code.take q).length)] at hc
      rw [hlen] at hc
      have : q - 1 - (q - 1 - p) = p := by omega
      rw [this, List.getElem?_take, if_pos h1, ← List.getD_eq_getElem?_getD] at hc
      exact hc
    · rw [netRv_take_reverse, hlen] at hn
      have : q - (q - 1 - p) = p + 1 := by omega
      rw [this] at hn; exact hn
    · intro k hk1 hk2
      have := hp (q - k) (by omega)
      rw [netRv_take_reverse, hlen] at this
      have heq : q - (q - k) = k := by omega
      rw [heq] at this; exact this

/-- The forward scan finds exactly the position satisfying the
close-bracket condition — but relative to the suffix after the `[`. -/
lemma mflp_of_closedAt (code : List Char) (i m : Nat)
    (h : ClosedAt (code.drop (i + 1)) m) :
    Interpreter.matching_for_left_paren i code = .ok m := by
  obtain ⟨hm, hc, hn, hp⟩ := h
  obtain ⟨j, hj⟩ := mflpAux_complete (code.drop (i + 1)) 0 0 m hm hc
    (by simpa using hn) (by intro n hn'; simpa using hp n hn')
  obtain ⟨m', hm', hjm, hc', hn', hp'⟩ := mflpAux_sound (code.drop (i + 1)) 0 0 j hj
  have hcl : ClosedAt (code.drop (i + 1)) m' :=
    ⟨hm', hc', by simpa using hn', by intro n hn''; simpa using hp' n hn''⟩
  have : m' = m := closedAt_unique hcl ⟨hm, hc, hn, hp⟩
  unfold Interpreter.matching_for_left_paren
  rw [hj, hjm, this, Nat.zero_add]

/-- The backward scan finds exactly the absolute position of the
matching `[`. -/
lemma mfrp_of_matchesOpen (code : List Char) (q p : Nat)
    (hq : q ≤ code.length) (h : MatchesOpen code q p) :
    Interpreter.matching_for_right_paren q code = .ok p := by
  rw [matchesOpen_iff code q p hq] at h
  obtain ⟨hpq, hm, hc, hn, hp⟩ := h
  obtain ⟨j, hj⟩ := mfrpAux_complete ((code.take q).reverse) (q - 1) 0 _ hm hc
    (by simpa using hn) (by intro n hn'; simpa using hp n hn')
  obtain ⟨m', hm', hjm, hc', hn', hp'⟩ := mfrpAux_sound ((code.take q).reverse) (q - 1) 0 j
    (by rw [List.length_reverse, List.length_take]; omega) hj
  have hop : OpenAt ((code.take q).reverse) m' :=
    ⟨hm', hc', by simpa using hn', by intro n hn''; simpa using hp' n hn''⟩
  have hmm : m' = q - 1 - p := openAt_unique hop ⟨hm, hc, hn, hp⟩
  have hlenr : ((code.take q).reverse).length = q := by
    rw [List.length_reverse, List.length_take]; omega
  unfold Interpreter.matching_for_right_paren
  rw [hj, hjm, hmm]
  congr 1
  omega

/-- The forward scan fails exactly when no matching `]` exists. -/
lemma mflp_error_iff (code : List Char) (i : Nat) :
    Interpreter.matching_for_left_paren i code = .error .invalidCode ↔
      ¬ ∃ q, MatchesClose code i q := by
  constructor
  · rintro herr ⟨q, hq⟩
    rw [matchesClose_iff] at hq
    have := mflp_of_closedAt code i _ hq.2
    rw [this] at herr
    exact Except.noConfusion herr
  · intro hno
    rcases mflpAux_error_or_ok (code.drop (i + 1)) 0 0 with h | ⟨j, hj⟩
    · exact h
    · exfalso
      apply hno
      obtain ⟨m, hm, hjm, hc, hn, hp⟩ := mflpAux_sound (code.drop (i + 1)) 0 0 j hj
      refine ⟨i + 1 + m, ?_⟩
      rw [matchesClose_iff]
      have : i + 1 + m - i - 1 = m := by omega
      rw [this]
      exact ⟨by omega, hm, hc, by simpa using hn, by intro n hn'; simpa using hp n hn'⟩

/-- The backward scan fails exactly when no matching `[` exists. -/
lemma mfrp_error_iff (code : List Char) (q : Nat) (hq : q ≤ code.length) :
    Interpreter.matching_for_right_paren q code = .error .invalidCode ↔
      ¬ ∃ p, MatchesOpen code q p := by
  constructor
  · rintro herr ⟨p, hp⟩
    have := mfrp_of_matchesOpen code q p hq hp
    rw [this] at herr
    exact Except.noConfusion herr
  · intro hno
    rcases mfrpAux_error_or_ok ((code.take q).reverse) (q - 1) 0 with h | ⟨j, hj⟩
    · exact h
    · exfalso
      apply hno
      have hlpos : 0 < ((code.take q).reverse).length := by
        rcases Nat.eq_zero_or_pos ((code.take q).reverse).length with h0 | h0
        · rw [List.length_eq_zero.mp h0] at hj
          exact absurd hj (by simp [mfrpAux])
        · exact h0
      have hq1 : 1 ≤ q := by
        rw [List.length_reverse, List.length_take] at hlpos; omega
      obtain ⟨m, hm, hjm, hc, hn, hp⟩ := mfrpAux_sound ((code.take q).reverse) (q - 1) 0 j
        (by rw [List.length_reverse, List.length_take]; omega) hj
      have hlenr : ((code.take q).reverse).length = q := by
        rw [List.length_reverse, List.length_take]; omega
      refine ⟨q - 1 - m, ?_⟩
      rw [matchesOpen_iff code q _ hq]
      have hmq : m < q := by rw [hlenr] at hm; exact hm
      have : q - 1 - (q - 1 - m) = m := by omega
      rw [this]
      exact ⟨by omega, hm, hc, by simpa using hn, by intro n hn'; simpa using hp n hn'⟩

/-- A non-blank character at position `i` means `i` is in bounds. -/
lemma lt_length_of_getD (code : List Char) (i : Nat) (c : Char)
    (hc : c ≠ ' ') (h : code.getD i ' ' = c) : i < code.length := by
  by_contra hge
  push_neg at hge
  rw [List.getD_eq_default _ _ hge] at h
  exact hc h.symm

/-- One `+` (true) or `-` (false) instruction acting on the tape. -/
def pmStep (t : Tape) (b : Bool) : Tape :=
  if b then t.increment else t.decrement

/-- Folding a sequence of increments/decrements over a one-cell tape:
the cell follows signed counting modulo 256. -/
lemma plusMinus_fold : ∀ (ops : List Bool) (v : Nat), v < 256 →
    ops.foldl pmStep ⟨0, [v]⟩ =
      ⟨0, [(((v : Int) + ops.count true - ops.count false) % 256).toNat]⟩ := by
  intro ops
  induction ops with
  | nil =>
    intro v hv
    simp only [List.foldl_nil, List.count_nil, Nat.cast_zero, add_zero, sub_zero]
    rw [Int.emod_eq_of_lt (by positivity) (by exact_mod_cast hv)]
    simp
  | cons b rest ih =>
    intro v hv
    rw [List.foldl_cons]
    cases b with
    | true =>
      have hstep : pmStep ⟨0, [v]⟩ true = (⟨0, [(v + 1) % 256]⟩ : Tape) := by
        simp [pmStep, Tape.increment]
      rw [hstep, ih ((v + 1) % 256) (Nat.mod_lt _ (by norm_num))]
      congr 2
      simp only [List.count_cons, beq_iff_eq]
      push_cast
      omega
    | false =>
      have hstep : pmStep ⟨0, [v]⟩ false = (⟨0, [(v + 255) % 256]⟩ : Tape) := by
        simp [pmStep, Tape.decrement]
      rw [hstep, ih ((v + 255) % 256) (Nat.mod_lt _ (by norm_num))]
      congr 2
      simp only [List.count_cons, beq_iff_eq]
      push_cast
      omega

/-- Claim C2: `Tape::left` on head 0 fails with the boundary-violation
error, surfaced as a value the caller can observe (the embedding of the
Rust `panic!`, an unwinding, catchable termination of the run rather
than a process exit); on positive head it decrements the head by one and
keeps the cells. -/
theorem tape_left_boundary : ∀ t : Tape,
    (t.head = 0 → t.left = .error .panicNegativeIndex) ∧
    (0 < t.head → t.left = .ok ⟨t.head - 1, t.cells⟩) := by
  intro t
  constructor
  · intro h; simp [Tape.left, h]
  · intro h; simp [Tape.left, Nat.pos_iff_ne_zero.mp h]

/-- Witness for C2 at concrete tapes. -/
theorem tape_left_boundary_witness :
    (Tape.mk 0 [0]).left = .error .panicNegativeIndex ∧
    (Tape.mk 3 [1, 2, 3, 4]).left = .ok ⟨2, [1, 2, 3, 4]⟩ :=
  ⟨(tape_left_boundary ⟨0, [0]⟩).1 rfl, (tape_left_boundary ⟨3, [1, 2, 3, 4]⟩).2 (by norm_num)⟩

/-- Claim C5: any sequence of increments (`true`) and decrements
(`false`) applied to a fresh one-cell tape leaves the single cell at
`(increments - decrements) mod 256`; incrementing 255 gives 0 and
decrementing 0 gives 255, both as ordinary results, not errors. -/
theorem cell_wrapping_arithmetic :
    (∀ ops : List Bool,
      ops.foldl pmStep Tape.new =
        ⟨0, [(((ops.count true : Int) - ops.count false) % 256).toNat]⟩) ∧
    (Tape.mk 0 [255]).increment = ⟨0, [0]⟩ ∧
    (Tape.mk 0 [0]).decrement = ⟨0, [255]⟩ := by
  refine ⟨?_, rfl, rfl⟩
  intro ops
  have := plusMinus_fold ops 0 (by norm_num)
  simpa using this

/-- Claim C6: `Tape::input` on an exhausted source (the `UnexpectedEof`
outcome of `read_exact`) zeroes the cell at the head and succeeds, an
exhausted byte stream produces exactly that outcome, and every other
I/O error kind is propagated to the caller unchanged. -/
theorem input_eof_policy : ∀ t : Tape,
    t.input (.err .unexpectedEof) = .ok ⟨t.head, t.cells.set t.head 0⟩ ∧
    (readExact []).1 = .err .unexpectedEof ∧
    (∀ k, t.input (.err (.other k)) = .error (.ioError k)) ∧
    (∀ b, t.input (.ok b) = .ok ⟨t.head, t.cells.set t.head b⟩) := by
  intro t
  exact ⟨rfl, rfl, fun k => rfl, fun b => rfl⟩

/-- Claim C9: the program `,.` on the input stream holding the single
byte 0x41 terminates successfully, consumes the byte, and writes exactly
the single byte 0x41. -/
theorem roundtrip_copy :
    runFuel [',', '.'] 3 0 (initSt [0x41]) =
      some (.ok ⟨⟨0, [0x41]⟩, [], [0x41]⟩) := rfl

/-! ## Dispatch lemmas: one per instruction character. -/

lemma step_gt {code : List Char} {i : Nat} {s : St} (hc : code.getD i ' ' = '>') :
    step code i s = .ok (i, { s with tape := s.tape.right }) := by
  simp only [step]; rw [hc]
  rw [if_pos rfl]

lemma step_lt {code : List Char} {i : Nat} {s : St} (hc : code.getD i ' ' = '<') :
    step code i s = s.tape.left.map fun t => (i, { s with tape := t }) := by
  simp only [step]; rw [hc]
  rw [if_neg (by decide), if_pos rfl]

lemma step_plus {code : List Char} {i : Nat} {s : St} (hc : code.getD i ' ' = '+') :
    step code i s = .ok (i, { s with tape := s.tape.increment }) := by
  simp only [step]; rw [hc]
  rw [if_neg (by decide), if_neg (by decide), if_pos rfl]

lemma step_minus {code : List Char} {i : Nat} {s : St} (hc : code.getD i ' ' = '-') :
    step code i s = .ok (i, { s with tape := s.tape.decrement }) := by
  simp only [step]; rw [hc]
  rw [if_neg (by decide), if_neg (by decide), if_neg (by decide), if_pos rfl]

lemma step_dot {code : List Char} {i : Nat} {s : St} (hc : code.getD i ' ' = '.') :
    step code i s = .ok (i, { s with out := s.tape.output s.out }) := by
  simp only [step]; rw [hc]
  rw [if_neg (by decide), if_neg (by decide), if_neg (by decide), if_neg (by decide),
    if_pos rfl]

lemma step_comma {code : List Char} {i : Nat} {s : St} (hc : code.getD i ' ' = ',') :
    step code i s =
      (s.tape.input (readExact s.inp).1).map
        fun t => (i, { s with tape := t, inp := (readExact s.inp).2 }) := by
  simp only [step]; rw [hc]
  rw [if_neg (by decide), if_neg (by decide), if_neg (by decide), if_neg (by decide),
    if_neg (by decide), if_pos rfl]

lemma step_open {code : List Char} {i : Nat} {s : St} (hc : code.getD i ' ' = '[') :
    step code i s =
      if s.tape.isZero then
        (Interpreter.matching_for_left_paren i code).map fun j => (j, s)
      else .ok (i, s) := by
  simp only [step]; rw [hc]
  rw [if_neg (by decide), if_neg (by decide), if_neg (by decide), if_neg (by decide),
    if_neg (by decide), if_neg (by decide), if_pos rfl]

lemma step_close {code : List Char} {i : Nat} {s : St} (hc : code.getD i ' ' = ']') :
    step code i s =
      if !s.tape.isZero then
        (Interpreter.matching_for_right_paren i code).map fun j => (j, s)
      else .ok (i, s) := by
  simp only [step]; rw [hc]
  rw [if_neg (by decide), if_neg (by decide), if_neg (by decide), if_neg (by decide),
    if_neg (by decide), if_neg (by decide), if_neg (by decide), if_pos rfl]

lemma step_other {code : List Char} {i : Nat} {s : St}
    (h1 : code.getD i ' ' ≠ '>') (h2 : code.getD i ' ' ≠ '<')
    (h3 : code.getD i ' ' ≠ '+') (h4 : code.getD i ' ' ≠ '-')
    (h5 : code.getD i ' ' ≠ '.') (h6 : code.getD i ' ' ≠ ',')
    (h7 : code.getD i ' ' ≠ '[') (h8 : code.getD i ' ' ≠ ']') :
    step code i s = .ok (i, s) := by
  simp only [step]
  rw [if_neg h1, if_neg h2, if_neg h3, if_neg h4, if_neg h5, if_neg h6, if_neg h7,
    if_neg h8]

/-- Wrapper form of `mflpAux_error_or_ok`. -/
lemma mflp_error_or_ok (code : List Char) (i : Nat) :
    Interpreter.matching_for_left_paren i code = .error .invalidCode ∨
      ∃ j, Interpreter.matching_for_left_paren i code = .ok j :=
  mflpAux_error_or_ok (code.drop (i + 1)) 0 0

/-- Wrapper form of `mfrpAux_error_or_ok`. -/
lemma mfrp_error_or_ok (code : List Char) (i : Nat) :
    Interpreter.matching_for_right_paren i code = .error .invalidCode ∨
      ∃ j, Interpreter.matching_for_right_paren i code = .ok j :=
  mfrpAux_error_or_ok ((code.take i).reverse) (i - 1) 0

/-- Claim C3: at a `]` whose cell is nonzero and whose matching `[` sits
at absolute position `p`, the dispatch sets the cursor exactly to `p`,
and the shared cursor advance resumes the run at `p + 1` — inside the
loop body, past the `[`, so its zero test is not re-run on this
re-entry. -/
theorem close_bracket_jump : ∀ (code : List Char) (i p : Nat) (s : St),
    code.getD i ' ' = ']' → s.tape.isZero = false → MatchesOpen code i p →
    step code i s = .ok (p, s) ∧
    (∀ fuel, runFuel code (fuel + 1) i s = runFuel code fuel (p + 1) s) ∧
    code.getD p ' ' = '[' := by
  intro code i p s hc hz hm
  have hilen : i < code.length := lt_length_of_getD code i ']' (by decide) hc
  have hok : Interpreter.matching_for_right_paren i code = .ok p :=
    mfrp_of_matchesOpen code i p (le_of_lt hilen) hm
  have hstep : step code i s = .ok (p, s) := by
    rw [step_close hc, hz, hok]
    rfl
  refine ⟨hstep, ?_, hm.2.1⟩
  intro fuel
  simp only [runFuel]
  rw [if_neg (by omega), hstep]

/-- Witness for C3: the `]` of `+[-]` at cursor 3 with a nonzero cell
jumps to the `[` at position 1, and the run resumes at position 2. -/
theorem close_bracket_jump_witness :
    step ['+', '[', '-', ']'] 3 ⟨⟨0, [1]⟩, [], []⟩ = .ok (1, ⟨⟨0, [1]⟩, [], []⟩) ∧
    runFuel ['+', '[', '-', ']'] 6 3 ⟨⟨0, [1]⟩, [], []⟩ =
      runFuel ['+', '[', '-', ']'] 5 2 ⟨⟨0, [1]⟩, [], []⟩ := by
  have hm : MatchesOpen ['+', '[', '-', ']'] 3 1 := by
    refine ⟨by norm_num, by decide, by decide, ?_⟩
    intro k hk1 hk2
    interval_cases k <;> decide
  have h := close_bracket_jump ['+', '[', '-', ']'] 3 1 ⟨⟨0, [1]⟩, [], []⟩
    (by decide) (by decide) hm
  exact ⟨h.1, h.2.1 5⟩

/-- Claim C4: a dispatch step produces the invalid-program error exactly
when it sits on a `[` with a zero cell and no matching `]` to its right,
or on a `]` with a nonzero cell and no matching `[` to its left — so
detection is lazy, tied to actually reaching the bracket with the
triggering condition, with no upfront well-formedness pass; in
particular the one-byte program `[` always errors (its forward scan is
reached whatever the cell holds), while `+[` runs to completion even
though its `[` is unmatched. -/
theorem lazy_invalid_program :
    (∀ (code : List Char) (i : Nat) (s : St),
      step code i s = .error .invalidCode ↔
        (code.getD i ' ' = '[' ∧ s.tape.isZero = true ∧ ¬ ∃ q, MatchesClose code i q) ∨
        (code.getD i ' ' = ']' ∧ s.tape.isZero = false ∧ ¬ ∃ p, MatchesOpen code i p)) ∧
    (∀ inp, runFuel ['['] 2 0 (initSt inp) = some (.error .invalidCode)) ∧
    runFuel ['+', '['] 3 0 (initSt []) = some (.ok ⟨⟨0, [1]⟩, [], []⟩) := by
  refine ⟨?_, fun inp => rfl, rfl⟩
  intro code i s
  by_cases h1 : code.getD i ' ' = '>'
  · rw [step_gt h1, h1]; simp
  · by_cases h2 : code.getD i ' ' = '<'
    · rw [step_lt h2, h2]
      by_cases hh : s.tape.head = 0 <;> simp [Tape.left, hh, Except.map]
    · by_cases h3 : code.getD i ' ' = '+'
      · rw [step_plus h3, h3]; simp
      · by_cases h4 : code.getD i ' ' = '-'
        · rw [step_minus h4, h4]; simp
        · by_cases h5 : code.getD i ' ' = '.'
          · rw [step_dot h5, h5]; simp
          · by_cases h6 : code.getD i ' ' = ','
            · rw [step_comma h6, h6]
              rcases s.inp with _ | ⟨b, rest⟩ <;>
                simp [readExact, Tape.input, Except.map]
            · by_cases h7 : code.getD i ' ' = '['
              · rw [step_open h7]
                by_cases hz : s.tape.isZero
                · rw [if_pos hz]
                  rcases mflp_error_or_ok code i with herr | ⟨j, hok⟩
                  · rw [herr]
                    simp only [Except.map]
                    constructor
                    · intro _
                      exact Or.inl ⟨h7, hz, (mflp_error_iff code i).mp herr⟩
                    · intro _; trivial
                  · rw [hok]
                    simp only [Except.map]
                    constructor
                    · intro hcon; exact Except.noConfusion hcon
                    · rintro (⟨_, _, hno⟩ | ⟨hcl, _, _⟩)
                      · exact absurd ((mflp_error_iff code i).not.mp
                          (by rw [hok]; intro hcon; exact Except.noConfusion hcon))
                          (by simpa using hno)
                      · rw [h7] at hcl; exact absurd hcl (by decide)
                · rw [if_neg hz]
                  constructor
                  · intro hcon; exact Except.noConfusion hcon
                  · rintro (⟨_, hzt, _⟩ | ⟨hcl, _, _⟩)
                    · exact absurd hzt hz
                    · rw [h7] at hcl; exact absurd hcl (by decide)
              · by_cases h8 : code.getD i ' ' = ']'
                · rw [step_close h8]
                  have hilen : i < code.length := lt_length_of_getD code i ']' (by decide) h8
                  by_cases hz : s.tape.isZero
                  · rw [hz]
                    simp only [Bool.not_true, if_neg (by decide : ¬false = true)]
                    constructor
                    · intro hcon; exact Except.noConfusion hcon
                    · rintro (⟨hop, _, _⟩ | ⟨_, hzf, _⟩)
                      · rw [h8] at hop; exact absurd hop (by decide)
                      · exact Bool.noConfusion hzf
                  · have hzf : s.tape.isZero = false := Bool.eq_false_iff.mpr hz
                    rw [hzf]
                    simp only [Bool.not_false, if_pos rfl]
                    rcases mfrp_error_or_ok code i with herr | ⟨j, hok⟩
                    · rw [herr]
                      simp only [Except.map]
                      constructor
                      · intro _
                        exact Or.inr ⟨h8, trivial,
                          (mfrp_error_iff code i (le_of_lt hilen)).mp herr⟩
                      · intro _; trivial
                    · rw [hok]
                      simp only [Except.map]
                      constructor
                      · intro hcon; exact Except.noConfusion hcon
                      · rintro (⟨hop, _, _⟩ | ⟨_, _, hno⟩)
                        · rw [h8] at hop; exact absurd hop (by decide)
                        · exact absurd ((mfrp_error_iff code i (le_of_lt hilen)).not.mp
                            (by rw [hok]; intro hcon; exact Except.noConfusion hcon))
                            (by simpa using hno)
                · rw [step_other h1 h2 h3 h4 h5 h6 h7 h8]
                  constructor
                  · intro hcon; exact Except.noConfusion hcon
                  · rintro (⟨hcl, _, _⟩ | ⟨hop, _, _⟩)
                    · exact absurd hcl h7
                    · exact absurd hop h8

/-- On `>[ ]` the cursor gets stuck at position 1: the forward scan
returns 0 (the offset of the `]` inside `code[2..]`) instead of the
absolute position 2, so after the shared `i += 1` the run is back at the
same `[` with the same state, forever. -/
lemma stuck_loop_aux : ∀ fuel : Nat,
    runFuel ['>', '[', ']'] fuel 1 ⟨⟨1, [0, 0]⟩, [], []⟩ = none := by
  intro fuel
  induction fuel with
  | zero => rfl
  | succ f ih => exact ih

/-- Claim C1 (counter-evidence): the forward jump does not land on the
matching `]`.  `matching_for_left_paren` yields the slice-relative index
(0 here) although the matching `]` of the `[` at position 1 sits at
absolute position 2; as a consequence the three-byte program `>[]`
never terminates, under any amount of fuel. -/
theorem open_bracket_jump_bug :
    Interpreter.matching_for_left_paren 1 ['>', '[', ']'] = .ok 0 ∧
    MatchesClose ['>', '[', ']'] 1 2 ∧
    (∀ fuel, runFuel ['>', '[', ']'] fuel 0 (initSt []) = none) := by
  refine ⟨rfl, ⟨by norm_num, by norm_num, by decide, by decide, ?_⟩, ?_⟩
  · intro n hn
    obtain rfl : n = 0 := by omega
    decide
  · intro fuel
    cases fuel with
    | zero => rfl
    | succ f => exact stuck_loop_aux f

/-- The tape invariant: the head is a valid index into the cells. -/
def Inv (t : Tape) : Prop := t.head < t.cells.length

instance (t : Tape) : Decidable (Inv t) := Nat.decLt _ _

/-- Claim C7: the initial tape is one zero cell with head 0 and satisfies
the invariant, and every tape operation that returns normally preserves
`0 ≤ head < length` and never shrinks the cells; `right` at the last
cell appends exactly one zero cell before advancing. -/
theorem tape_invariants :
    (Tape.new = ⟨0, [0]⟩ ∧ Inv Tape.new) ∧
    (∀ t, Inv t → Inv t.right ∧ t.cells.length ≤ t.right.cells.length) ∧
    (∀ t, Inv t → t.head = t.cells.length - 1 → t.right = ⟨t.head + 1, t.cells ++ [0]⟩) ∧
    (∀ t t', t.left = .ok t' → Inv t → Inv t' ∧ t'.cells = t.cells) ∧
    (∀ t, Inv t → Inv t.increment ∧ t.increment.cells.length = t.cells.length) ∧
    (∀ t, Inv t → Inv t.decrement ∧ t.decrement.cells.length = t.cells.length) ∧
    (∀ t r t', t.input r = .ok t' → Inv t → Inv t' ∧ t'.cells.length = t.cells.length) := by
  refine ⟨⟨rfl, by decide⟩, ?_, ?_, ?_, ?_, ?_, ?_⟩
  · intro t ht
    unfold Inv Tape.right at *
    dsimp only
    split_ifs with h
    · simp only [List.length_append, List.length_singleton]
      omega
    · constructor
      · omega
      · omega
  · intro t ht hlast
    unfold Tape.right
    dsimp only
    rw [if_pos hlast]
  · intro t t' h ht
    by_cases h0 : t.head = 0
    · rw [Tape.left, if_pos h0] at h
      exact absurd h (by simp)
    · rw [Tape.left, if_neg h0] at h
      have h2 : (⟨t.head - 1, t.cells⟩ : Tape) = t' := by
        simpa using h
      subst h2
      unfold Inv at *
      exact ⟨by dsimp only; omega, rfl⟩
  · intro t ht
    unfold Inv Tape.increment at *
    dsimp only
    rw [List.length_set]
    exact ⟨ht, rfl⟩
  · intro t ht
    unfold Inv Tape.decrement at *
    dsimp only
    rw [List.length_set]
    exact ⟨ht, rfl⟩
  · intro t r t' h ht
    unfold Inv at *
    cases r with
    | ok b =>
      obtain rfl : (⟨t.head, t.cells.set t.head b⟩ : Tape) = t' := by
        simpa [Tape.input] using h
      dsimp only
      rw [List.length_set]
      exact ⟨ht, rfl⟩
    | err kind =>
      cases kind with
      | unexpectedEof =>
        obtain rfl : (⟨t.head, t.cells.set t.head 0⟩ : Tape) = t' := by
          simpa [Tape.input] using h
        dsimp only
        rw [List.length_set]
        exact ⟨ht, rfl⟩
      | other k => exact absurd h (by simp [Tape.input])

/-- Witness for C7 at concrete tapes. -/
theorem tape_invariants_witness :
    Inv (Tape.mk 0 [0]).right ∧
    (Tape.mk 0 [0]).right = ⟨1, [0] ++ [0]⟩ ∧
    (Inv (Tape.mk 1 [7, 8, 9]) ∧ (Tape.mk 1 [7, 8, 9]).cells = (Tape.mk 2 [7, 8, 9]).cells) ∧
    Inv (Tape.mk 0 [5]).increment ∧
    Inv (Tape.mk 0 [5]).decrement ∧
    (Inv (Tape.mk 0 [4]) ∧ (Tape.mk 0 [4]).cells.length = (Tape.mk 0 [9]).cells.length) :=
  ⟨(tape_invariants.2.1 ⟨0, [0]⟩ (by decide)).1,
    tape_invariants.2.2.1 ⟨0, [0]⟩ (by decide) rfl,
    tape_invariants.2.2.2.1 ⟨2, [7, 8, 9]⟩ ⟨1, [7, 8, 9]⟩ rfl (by decide),
    (tape_invariants.2.2.2.2.1 ⟨0, [5]⟩ (by decide)).1,
    (tape_invariants.2.2.2.2.2.1 ⟨0, [5]⟩ (by decide)).1,
    tape_invariants.2.2.2.2.2.2 ⟨0, [9]⟩ (ReadRes.ok 4) ⟨0, [4]⟩ rfl (by decide)⟩

/-- `k` successive applications of `Tape::right`. -/
def rightIter : Nat → Tape → Tape
  | 0, t => t
  | k + 1, t => rightIter k t.right

/-- Running through a block of `k` consecutive `>` instructions. -/
lemma runFuel_rights (code : List Char) : ∀ (k f i : Nat) (t : Tape) (ip op : List Nat),
    (∀ m, m < k → code.getD (i + m) ' ' = '>') → i + k ≤ code.length →
    runFuel code (f + k) i ⟨t, ip, op⟩ =
      runFuel code f (i + k) ⟨rightIter k t, ip, op⟩ := by
  intro k
  induction k with
  | zero =>
    intro f i t ip op _ _
    simp [rightIter]
  | succ k ih =>
    intro f i t ip op hch hle
    have hc : code.getD i ' ' = '>' := by simpa using hch 0 (by omega)
    have hi : i ≠ code.length := by
      have := lt_length_of_getD code i '>' (by decide) hc
      omega
    have h1 : runFuel code ((f + k) + 1) i ⟨t, ip, op⟩ =
        runFuel code (f + k) (i + 1) ⟨t.right, ip, op⟩ := by
      simp only [runFuel]
      rw [if_neg hi, step_gt hc]
    have h2 := ih f (i + 1) t.right ip op
      (fun m hm => by
        have := hch (m + 1) (by omega)
        rw [show i + 1 + m = i + (m + 1) by omega]
        exact this)
      (by omega)
    have hfe : f + (k + 1) = (f + k) + 1 := by omega
    have hie : i + 1 + k = i + (k + 1) := by omega
    rw [hfe, h1, h2, hie]
    rfl

/-- Running through a block of `k` consecutive `<` instructions, given
the head stays in range. -/
lemma runFuel_lefts (code : List Char) : ∀ (k f i hd : Nat) (cl : List Nat)
    (ip op : List Nat),
    (∀ m, m < k → code.getD (i + m) ' ' = '<') → i + k ≤ code.length →
    k ≤ hd →
    runFuel code (f + k) i ⟨⟨hd, cl⟩, ip, op⟩ =
      runFuel code f (i + k) ⟨⟨hd - k, cl⟩, ip, op⟩ := by
  intro k
  induction k with
  | zero =>
    intro f i hd cl ip op _ _ _
    simp
  | succ k ih =>
    intro f i hd cl ip op hch hle hhd
    have hc : code.getD i ' ' = '<' := by simpa using hch 0 (by omega)
    have hi : i ≠ code.length := by
      have := lt_length_of_getD code i '<' (by decide) hc
      omega
    have hL : (Tape.mk hd cl).left = .ok ⟨hd - 1, cl⟩ := by
      rw [Tape.left, if_neg (by dsimp only; omega)]
    have h1 : runFuel code ((f + k) + 1) i ⟨⟨hd, cl⟩, ip, op⟩ =
        runFuel code (f + k) (i + 1) ⟨⟨hd - 1, cl⟩, ip, op⟩ := by
      simp only [runFuel]
      rw [if_neg hi, step_lt hc, hL]
      rfl
    have h2 := ih f (i + 1) (hd - 1) cl ip op
      (fun m hm => by
        have := hch (m + 1) (by omega)
        rw [show i + 1 + m = i + (m + 1) by omega]
        exact this)
      (by omega) (by omega)
    have hfe : f + (k + 1) = (f + k) + 1 := by omega
    have hie : i + 1 + k = i + (k + 1) := by omega
    have hsub : hd - 1 - k = hd - (k + 1) := by omega
    rw [hfe, h1, h2, hie, hsub]

/-- Applying `right` `k` times to a full zero tape with the head at the
end grows the tape one zero cell per move. -/
lemma rightIter_grow : ∀ (k j : Nat),
    rightIter k ⟨j, List.replicate (j + 1) 0⟩ =
      ⟨j + k, List.replicate (j + k + 1) 0⟩ := by
  intro k
  induction k with
  | zero => intro j; simp [rightIter]
  | succ k ih =>
    intro j
    have hr : (Tape.mk j (List.replicate (j + 1) 0)).right =
        ⟨j + 1, List.replicate (j + 2) 0⟩ := by
      rw [Tape.right]
      dsimp only
      rw [List.length_replicate, if_pos (by omega), ← List.replicate_succ']
    show rightIter k (Tape.mk j (List.replicate (j + 1) 0)).right = _
    rw [hr, ih (j + 1), show j + 1 + k = j + (k + 1) by omega]

/-- Claim C8: the program of `N` `>` followed by `N` `<` runs to a
successful stop with the head back at 0 and exactly `N + 1` zero cells
allocated (so at least `N + 1`), and no single dispatch step ever
shrinks the tape. -/
theorem grow_and_return :
    (∀ (N : Nat) (inp : List Nat),
      runFuel (List.replicate N '>' ++ List.replicate N '<') (2 * N + 1) 0 (initSt inp) =
        some (.ok ⟨⟨0, List.replicate (N + 1) 0⟩, inp, []⟩)) ∧
    (∀ (code : List Char) (i : Nat) (s : St) (j : Nat) (s' : St),
      step code i s = .ok (j, s') → s.tape.cells.length ≤ s'.tape.cells.length) := by
  constructor
  · intro N inp
    set code := List.replicate N '>' ++ List.replicate N '<' with hcode
    have hlen : code.length = 2 * N := by
      rw [hcode, List.length_append, List.length_replicate, List.length_replicate]
      omega
    have hgt : ∀ m, m < N → code.getD (0 + m) ' ' = '>' := by
      intro m hm
      rw [hcode, Nat.zero_add, List.getD_eq_getElem?_getD,
        List.getElem?_append_left (by rw [List.length_replicate]; omega),
        List.getElem?_replicate_of_lt hm]
      rfl
    have hlt : ∀ m, m < N → code.getD (N + m) ' ' = '<' := by
      intro m hm
      rw [hcode, List.getD_eq_getElem?_getD,
        List.getElem?_append_right (by rw [List.length_replicate]; omega)]
      rw [List.length_replicate, show N + m - N = m by omega,
        List.getElem?_replicate_of_lt hm]
      rfl
    have h1 := runFuel_rights code N (N + 1) 0 Tape.new inp [] hgt (by omega)
    have htape : rightIter N Tape.new = ⟨N, List.replicate (N + 1) 0⟩ := by
      have h0 : Tape.new = ⟨0, List.replicate 1 0⟩ := rfl
      rw [h0]
      simpa using rightIter_grow N 0
    have h2 := runFuel_lefts code N 1 N N (List.replicate (N + 1) 0) inp []
      (fun m hm => hlt m hm) (by omega) (le_refl N)
    rw [show (1 : Nat) + N = N + 1 by omega] at h2
    have hfin : runFuel code 1 (N + N)
        ⟨⟨N - N, List.replicate (N + 1) 0⟩, inp, []⟩ =
        some (.ok ⟨⟨0, List.replicate (N + 1) 0⟩, inp, []⟩) := by
      simp only [runFuel]
      rw [if_pos (by omega), show N - N = 0 by omega]
    show runFuel code (2 * N + 1) 0 ⟨Tape.new, inp, []⟩ = _
    rw [show 2 * N + 1 = (N + 1) + N by omega, h1, Nat.zero_add, htape, h2, hfin]

  · intro code i s j s' h
    by_cases h1 : code.getD i ' ' = '>'
    · rw [step_gt h1] at h
      obtain ⟨rfl, rfl⟩ : i = j ∧ { s with tape := s.tape.right } = s' := by
        simpa using h
      dsimp only
      rw [Tape.right]
      dsimp only
      split_ifs
      · rw [List.length_append]; omega
      · omega
    · by_cases h2 : code.getD i ' ' = '<'
      · rw [step_lt h2] at h
        by_cases h0 : s.tape.head = 0
        · rw [Tape.left, if_pos h0] at h
          exact absurd h (by simp [Except.map])
        · rw [Tape.left, if_neg h0] at h
          obtain ⟨rfl, rfl⟩ : i = j ∧
              { s with tape := ⟨s.tape.head - 1, s.tape.cells⟩ } = s' := by
            simpa [Except.map] using h
          exact le_refl _
      · by_cases h3 : code.getD i ' ' = '+'
        · rw [step_plus h3] at h
          obtain ⟨rfl, rfl⟩ : i = j ∧ { s with tape := s.tape.increment } = s' := by
            simpa using h
          dsimp only
          rw [Tape.increment]
          dsimp only
          rw [List.length_set]
        · by_cases h4 : code.getD i ' ' = '-'
          · rw [step_minus h4] at h
            obtain ⟨rfl, rfl⟩ : i = j ∧ { s with tape := s.tape.decrement } = s' := by
              simpa using h
            dsimp only
            rw [Tape.decrement]
            dsimp only
            rw [List.length_set]
          · by_cases h5 : code.getD i ' ' = '.'
            · rw [step_dot h5] at h
              obtain ⟨rfl, rfl⟩ : i = j ∧ { s with out := s.tape.output s.out } = s' := by
                simpa using h
              exact le_refl _
            · by_cases h6 : code.getD i ' ' = ','
              · rw [step_comma h6] at h
                rcases hread : (readExact s.inp).1 with b | kind
                · rw [hread] at h
                  obtain ⟨rfl, rfl⟩ : i = j ∧
                      ({ s with
                          tape := ⟨s.tape.head, s.tape.cells.set s.tape.head b⟩
                          inp := (readExact s.inp).2 } = s') := by
                    simpa [Tape.input, Except.map] using h
                  dsimp only
                  rw [List.length_set]
                · cases kind with
                  | unexpectedEof =>
                    rw [hread] at h
                    obtain ⟨rfl, rfl⟩ : i = j ∧
                        ({ s with
                            tape := ⟨s.tape.head, s.tape.cells.set s.tape.head 0⟩
                            inp := (readExact s.inp).2 } = s') := by
                      simpa [Tape.input, Except.map] using h
                    dsimp only
                    rw [List.length_set]
                  | other k =>
                    rw [hread] at h
                    exact absurd h (by simp [Tape.input, Except.map])
              · by_cases h7 : code.getD i ' ' = '['
                · rw [step_open h7] at h
                  by_cases hz : s.tape.isZero
                  · rw [if_pos hz] at h
                    rcases hres : Interpreter.matching_for_left_paren i code with e | jj
                    · rw [hres] at h
                      exact absurd h (by simp [Except.map])
                    · rw [hres] at h
                      obtain ⟨rfl, rfl⟩ : jj = j ∧ s = s' := by
                        simpa [Except.map] using h
                      exact le_refl _
                  · rw [if_neg hz] at h
                    obtain ⟨rfl, rfl⟩ : i = j ∧ s = s' := by simpa using h
                    exact le_refl _
                · by_cases h8 : code.getD i ' ' = ']'
                  · rw [step_close h8] at h
                    by_cases hz : s.tape.isZero
                    · rw [hz] at h
                      simp only [Bool.not_true, if_neg (by decide : ¬false = true)] at h
                      obtain ⟨rfl, rfl⟩ : i = j ∧ s = s' := by simpa using h
                      exact le_refl _
                    · have hzf : s.tape.isZero = false := Bool.eq_false_iff.mpr hz
                      rw [hzf] at h
                      simp only [Bool.not_false, if_pos rfl] at h
                      rcases hres : Interpreter.matching_for_right_paren i code with e | jj
                      · rw [hres] at h
                        exact absurd h (by simp [Except.map])
                      · rw [hres] at h
                        obtain ⟨rfl, rfl⟩ : jj = j ∧ s = s' := by
                          simpa [Except.map] using h
                        exact le_refl _
                  · rw [step_other h1 h2 h3 h4 h5 h6 h7 h8] at h
                    obtain ⟨rfl, rfl⟩ : i = j ∧ s = s' := by simpa using h
                    exact le_refl _

/-- Witness for C8 at N = 2 and one concrete dispatch step. -/
theorem grow_and_return_witness :
    runFuel (List.replicate 2 '>' ++ List.replicate 2 '<') 5 0 (initSt []) =
      some (.ok ⟨⟨0, List.replicate 3 0⟩, [], []⟩) ∧
    (initSt []).tape.cells.length ≤
      (⟨⟨1, [0, 0]⟩, [], []⟩ : St).tape.cells.length :=
  ⟨grow_and_return.1 2 [],
    grow_and_return.2 ['>'] 0 (initSt []) 0 ⟨⟨1, [0, 0]⟩, [], []⟩ rfl⟩

lemma getD_set_ne (l : List Nat) (k j a : Nat) (h : k ≠ j) :
    (l.set k a).getD j 0 = l.getD j 0 := by
  rw [List.getD_eq_getElem?_getD, List.getD_eq_getElem?_getD, List.getElem?_set_ne h]

/-- Claim C10: each mutating tape operation touches at most the cell at
the head — increment, decrement and input rewrite only `cells[head]` and
move nothing; `left` moves only the head; `right` preserves every
existing cell and at most appends one zero cell; the `.` dispatch
(read_cell_into) returns the tape unchanged.  (`is_zero` and `output`
take the tape by shared reference in the source and are embedded as pure
functions, so they cannot modify it.) -/
theorem frame_effects :
    (∀ (t : Tape) (j : Nat), j ≠ t.head →
      t.increment.head = t.head ∧
      t.increment.cells.getD j 0 = t.cells.getD j 0 ∧
      t.decrement.head = t.head ∧
      t.decrement.cells.getD j 0 = t.cells.getD j 0) ∧
    (∀ (t : Tape) (r : ReadRes) (t' : Tape), t.input r = .ok t' →
      t'.head = t.head ∧ ∀ j, j ≠ t.head → t'.cells.getD j 0 = t.cells.getD j 0) ∧
    (∀ t : Tape, (∀ j, j < t.cells.length → t.right.cells.getD j 0 = t.cells.getD j 0) ∧
      (t.right.cells = t.cells ∨ t.right.cells = t.cells ++ [0])) ∧
    (∀ (t t' : Tape), t.left = .ok t' → t'.cells = t.cells) ∧
    (∀ code i s j s', code.getD i ' ' = '.' → step code i s = .ok (j, s') →
      s'.tape = s.tape ∧ j = i) := by
  refine ⟨?_, ?_, ?_, ?_, ?_⟩
  · intro t j hj
    refine ⟨rfl, ?_, rfl, ?_⟩
    · exact getD_set_ne _ _ _ _ (fun hh => hj hh.symm)
    · exact getD_set_ne _ _ _ _ (fun hh => hj hh.symm)
  · intro t r t' h
    cases r with
    | ok b =>
      obtain rfl : (⟨t.head, t.cells.set t.head b⟩ : Tape) = t' := by
        simpa [Tape.input] using h
      exact ⟨rfl, fun j hj => getD_set_ne _ _ _ _ (fun hh => hj hh.symm)⟩
    | err kind =>
      cases kind with
      | unexpectedEof =>
        obtain rfl : (⟨t.head, t.cells.set t.head 0⟩ : Tape) = t' := by
          simpa [Tape.input] using h
        exact ⟨rfl, fun j hj => getD_set_ne _ _ _ _ (fun hh => hj hh.symm)⟩
      | other k => exact absurd h (by simp [Tape.input])
  · intro t
    rw [Tape.right]
    dsimp only
    split_ifs with hh
    · refine ⟨?_, Or.inr rfl⟩
      intro j hj
      rw [List.getD_eq_getElem?_getD, List.getD_eq_getElem?_getD,
        List.getElem?_append_left hj]
    · exact ⟨fun j _ => rfl, Or.inl rfl⟩
  · intro t t' h
    by_cases h0 : t.head = 0
    · rw [Tape.left, if_pos h0] at h
      exact absurd h (by simp)
    · rw [Tape.left, if_neg h0] at h
      obtain rfl : (⟨t.head - 1, t.cells⟩ : Tape) = t' := by simpa using h
      rfl
  · intro code i s j s' hc h
    rw [step_dot hc] at h
    obtain ⟨rfl, rfl⟩ : i = j ∧ { s with out := s.tape.output s.out } = s' := by
      simpa using h
    exact ⟨rfl, rfl⟩

/-- Witness for C10 at concrete tapes and a concrete `.` dispatch. -/
theorem frame_effects_witness :
    ((Tape.mk 0 [1, 2]).increment.head = 0 ∧
      (Tape.mk 0 [1, 2]).increment.cells.getD 1 0 = (Tape.mk 0 [1, 2]).cells.getD 1 0 ∧
      (Tape.mk 0 [1, 2]).decrement.head = 0 ∧
      (Tape.mk 0 [1, 2]).decrement.cells.getD 1 0 = (Tape.mk 0 [1, 2]).cells.getD 1 0) ∧
    (Tape.mk 1 [3, 4]).cells = (Tape.mk 2 [3, 4]).cells ∧
    ((Tape.mk 0 [7]).right.cells = [7] ∨ (Tape.mk 0 [7]).right.cells = [7] ++ [0]) ∧
    (⟨⟨0, [9]⟩, [], [9]⟩ : St).tape = (⟨⟨0, [9]⟩, [], []⟩ : St).tape := by
  refine ⟨frame_effects.1 ⟨0, [1, 2]⟩ 1 (by norm_num), ?_, ?_, ?_⟩
  · exact frame_effects.2.2.2.1 ⟨2, [3, 4]⟩ ⟨1, [3, 4]⟩ rfl
  · exact (frame_effects.2.2.1 ⟨0, [7]⟩).2
  · exact (frame_effects.2.2.2.2 ['.'] 0 ⟨⟨0, [9]⟩, [], []⟩ 0 ⟨⟨0, [9]⟩, [], [9]⟩
      rfl rfl).1

end Brainruck
